import Mathlib

set_option autoImplicit false

/-!
Verification development for the npm-bisect repository.

The JavaScript sources are shallowly embedded:
- publish instants are `Option Int` (milliseconds since the epoch, `none`
  standing for an Invalid Date / NaN produced by a failed `new Date(...)` parse);
- JavaScript objects used as string-keyed maps (`obj.time`, `obj.versions`,
  request/response headers) are association lists `List (String × _)`.
  JavaScript objects never hold two entries with the same key, so iterating
  over the entry list is the same as iterating over `Object.keys` and looking
  each key up;
- the rewriter `removeVersionsFromPackageMetadata` is parameterized by the
  list of reserved time-map keys, because the sources disagree: `main.js`
  skips `modified`/`changed` while the `part_001`/`part_002` variants skip
  `modified`/`created`.
-/

namespace NpmBisect

/-- A parsed `Date` value: `some t` is a valid instant (`getTime()` in
milliseconds), `none` is an Invalid Date (NaN). -/
abbrev Instant := Option Int

/-- Models `new Date(x) > ignoreNewerThan` with JavaScript NaN semantics: any
comparison involving NaN is false. The cutoff itself is a valid instant. -/
def instantGt (t : Instant) (cutoff : Int) : Bool :=
  match t with
  | some v => cutoff < v
  | none => false

/-- Comparison `time > latestPreservedVersionTime` where both sides are `Date` objects
(either possibly Invalid): NaN on either side makes the comparison false. -/
def instantGtInstant : Instant → Instant → Bool
  | some a, some b => b < a
  | _, _ => false

/-- A parsed registry package-metadata document. `versions` maps version keys
to opaque per-version objects (kept as strings, the rewriter never looks
inside); `time` maps version keys to parsed publish instants; `distTags` is
`obj['dist-tags']`: `none` when the field is absent, otherwise the value of
its `latest` property (`none` when `latest` is absent). A field holding
`some []` models a present-but-empty object, which is truthy in JavaScript. -/
structure PackageMetadataDocument where
  name : String
  versions : Option (List (String × String))
  time : Option (List (String × Instant))
  distTags : Option (Option String)
  deriving Repr, DecidableEq

/-- Reserved time-map keys skipped by the `main.js` rewriter:
`version !== 'modified' && version !== 'changed'`. -/
def mainReservedKeys : List String := ["modified", "changed"]

/-- Reserved time-map keys skipped by the `part_001`/`part_002` rewriter:
`version !== 'modified' && version !== 'created'`. -/
def variantReservedKeys : List String := ["modified", "created"]

/-- Loop state of `removeVersionsFromPackageMetadata`: the `deletedVersions`
set, the `latestPreservedVersion` / `latestPreservedVersionTime` pair
(`latestPreservedVersionTime = none` when the variable is still unassigned;
once assigned it holds a `Date` object, which is truthy even when Invalid),
and the `changesMade` flag. -/
structure RewriteAcc where
  deleted : List String
  latestPreservedVersion : Option String
  latestPreservedVersionTime : Option Instant
  changesMade : Bool
  deriving Repr, DecidableEq

/-- The `for (const version of Object.keys(timeByVersion))` loop of
`removeVersionsFromPackageMetadata`, iterating over the snapshot of entries.
Deletions are accumulated in `deleted` and applied to the maps afterwards;
since keys of a JavaScript object are distinct and each key is visited once,
this is the same as deleting mid-loop. -/
def rewriteLoop (reserved : List String) (cutoff : Int) :
    List (String × Instant) → RewriteAcc → RewriteAcc
  | [], acc => acc
  | (v, t) :: rest, acc =>
    if v ∈ reserved then
      rewriteLoop reserved cutoff rest acc
    else if instantGt t cutoff then
      rewriteLoop reserved cutoff rest
        { acc with deleted := acc.deleted ++ [v], changesMade := true }
    else
      let replace :=
        match acc.latestPreservedVersionTime with
        | none => true
        | some cur => instantGtInstant t cur
      if replace then
        rewriteLoop reserved cutoff rest
          { acc with latestPreservedVersion := some v,
                     latestPreservedVersionTime := some t }
      else
        rewriteLoop reserved cutoff rest acc

/-- Embedding of `removeVersionsFromPackageMetadata(obj, timeByVersion)` with
`timeByVersion = obj.time`, as in all call sites. Returns the edited document
together with `changesMade`. The guard `timeByVersion && obj.versions`
requires both fields to be present (an empty object is truthy). The
`dist-tags` update runs when `changesMade && obj['dist-tags'] &&
obj['dist-tags'].latest && deletedVersions.has(latest)`; note that an empty
string `latest` is falsy in JavaScript. -/
def removeVersionsFromPackageMetadata (reserved : List String) (cutoff : Int)
    (obj : PackageMetadataDocument) : PackageMetadataDocument × Bool :=
  match obj.time, obj.versions with
  | some tm, some vs =>
    let acc := rewriteLoop reserved cutoff tm ⟨[], none, none, false⟩
    let tm2 := tm.filter fun e => decide (e.1 ∉ acc.deleted)
    let vs2 := vs.filter fun e => decide (e.1 ∉ acc.deleted)
    let dt2 :=
      match obj.distTags with
      | some (some latest) =>
        if acc.changesMade = true ∧ latest ≠ "" ∧ latest ∈ acc.deleted then
          some acc.latestPreservedVersion
        else
          obj.distTags
      | _ => obj.distTags
    ({ obj with time := some tm2, versions := some vs2, distTags := dt2 },
      acc.changesMade)
  | _, _ => (obj, false)

/-- Keys of `obj.versions` (empty when the field is absent). -/
def docVersionKeys (obj : PackageMetadataDocument) : List String :=
  (obj.versions.getD []).map Prod.fst

/-- First-match association-list lookup, i.e. reading `m[k]` on a JavaScript
object represented as an entry list. -/
def assocLookup {α : Type} : List (String × α) → String → Option α
  | [], _ => none
  | (k, a) :: rest, v => if k = v then some a else assocLookup rest v

/-- Reading `obj.time[v]` (an absent `time` field reads as an absent key). -/
def docTimeLookup (obj : PackageMetadataDocument) (v : String) :
    Option Instant :=
  assocLookup (obj.time.getD []) v

theorem assocLookup_mem {α : Type} {l : List (String × α)} {v : String}
    {a : α} (h : assocLookup l v = some a) : (v, a) ∈ l := by
  induction l with
  | nil => simp [assocLookup] at h
  | cons e rest ih =>
    obtain ⟨k, b⟩ := e
    by_cases hk : k = v
    · subst hk
      simp [assocLookup] at h
      simp [h]
    · simp [assocLookup, hk] at h
      exact List.mem_cons_of_mem _ (ih h)

theorem rewriteLoop_deleted_mem (reserved : List String) (cutoff : Int)
    (l : List (String × Instant)) (acc : RewriteAcc) (v : String) :
    v ∈ (rewriteLoop reserved cutoff l acc).deleted ↔
      v ∈ acc.deleted ∨
        ∃ t, (v, t) ∈ l ∧ v ∉ reserved ∧ instantGt t cutoff = true := by
  induction l generalizing acc with
  | nil => simp [rewriteLoop]
  | cons e rest ih =>
    obtain ⟨k, t⟩ := e
    by_cases hres : k ∈ reserved
    · rw [rewriteLoop, if_pos hres, ih]
      constructor
      · rintro (h | ⟨t', ht', hnr, hgt⟩)
        · exact Or.inl h
        · exact Or.inr ⟨t', List.mem_cons_of_mem _ ht', hnr, hgt⟩
      · rintro (h | ⟨t', ht', hnr, hgt⟩)
        · exact Or.inl h
        · rcases List.mem_cons.mp ht' with heq | hmem
          · cases heq
            exact absurd hres hnr
          · exact Or.inr ⟨t', hmem, hnr, hgt⟩
    · by_cases hgt : instantGt t cutoff = true
      · rw [rewriteLoop, if_neg hres, if_pos hgt, ih]
        simp only [List.mem_append, List.mem_singleton, List.mem_cons,
          List.not_mem_nil, or_false]
        constructor
        · rintro ((h | rfl) | ⟨t', ht', hnr, hgt'⟩)
          · exact Or.inl h
          · exact Or.inr ⟨t, Or.inl rfl, hres, hgt⟩
          · exact Or.inr ⟨t', Or.inr ht', hnr, hgt'⟩
        · rintro (h | ⟨t', heq | hmem, hnr, hgt'⟩)
          · exact Or.inl (Or.inl h)
          · cases heq
            exact Or.inl (Or.inr rfl)
          · exact Or.inr ⟨t', hmem, hnr, hgt'⟩
      · rw [rewriteLoop, if_neg hres]
        rw [if_neg (by simpa using hgt)]
        have key : ∀ acc' : RewriteAcc, acc'.deleted = acc.deleted →
            (v ∈ (rewriteLoop reserved cutoff rest acc').deleted ↔
              v ∈ acc.deleted ∨
                ∃ t', (v, t') ∈ (k, t) :: rest ∧ v ∉ reserved ∧
                  instantGt t' cutoff = true) := by
          intro acc' hdel
          rw [ih, hdel]
          constructor
          · rintro (h | ⟨t', ht', hnr, hgt'⟩)
            · exact Or.inl h
            · exact Or.inr ⟨t', List.mem_cons_of_mem _ ht', hnr, hgt'⟩
          · rintro (h | ⟨t', ht', hnr, hgt'⟩)
            · exact Or.inl h
            · rcases List.mem_cons.mp ht' with heq | hmem
              · cases heq
                exact absurd hgt' hgt
              · exact Or.inr ⟨t', hmem, hnr, hgt'⟩
        cases hcur : acc.latestPreservedVersionTime with
        | none => exact key _ rfl
        | some cur =>
          by_cases hrep : instantGtInstant t cur = true
          · simp only [hrep, if_pos]
            exact key _ rfl
          · simp only [hrep]
            simp only [Bool.false_eq_true, if_false]
            exact key _ rfl

theorem rewriteLoop_no_deletable (reserved : List String) (cutoff : Int)
    (l : List (String × Instant)) (acc : RewriteAcc)
    (h : ∀ e ∈ l, e.1 ∉ reserved → instantGt e.2 cutoff = false) :
    (rewriteLoop reserved cutoff l acc).deleted = acc.deleted ∧
      (rewriteLoop reserved cutoff l acc).changesMade = acc.changesMade := by
  induction l generalizing acc with
  | nil => simp [rewriteLoop]
  | cons e rest ih =>
    obtain ⟨k, t⟩ := e
    have hrest : ∀ e ∈ rest, e.1 ∉ reserved → instantGt e.2 cutoff = false :=
      fun e he => h e (List.mem_cons_of_mem _ he)
    by_cases hres : k ∈ reserved
    · rw [rewriteLoop, if_pos hres]
      exact ih acc hrest
    · have hgt : instantGt t cutoff = false := h (k, t) (List.mem_cons_self _ _) hres
      rw [rewriteLoop, if_neg hres, if_neg (by simp [hgt])]
      cases hcur : acc.latestPreservedVersionTime with
      | none => exact ih _ hrest
      | some cur =>
        by_cases hrep : instantGtInstant t cur = true
        · simp only [hrep, if_pos]
          exact ih _ hrest
        · simp only [hrep, Bool.false_eq_true, if_false]
          exact ih _ hrest

theorem instantGt_mono {t : Instant} {c1 c2 : Int} (hc : c1 ≤ c2)
    (hgt : instantGt t c2 = true) : instantGt t c1 = true := by
  cases t with
  | none => simp [instantGt] at hgt
  | some x =>
    simp only [instantGt, decide_eq_true_eq] at hgt ⊢
    omega

/-- Claim C2 (corrected; amended form): after rewriting, every version key
that remains in `versions`, is not a reserved key, and still has a time entry
holding a valid instant `t`, satisfies `t ≤ cutoff`. The claim as stated
fails for version keys with no time entry at all (see the counterexample);
for keys whose time value does not parse, no instant exists to compare. -/
theorem rewritten_versions_time_bounded (reserved : List String) (cutoff : Int)
    (obj : PackageMetadataDocument) (v : String) (t : Int)
    (hv : v ∈ docVersionKeys
      (removeVersionsFromPackageMetadata reserved cutoff obj).1)
    (hres : v ∉ reserved)
    (ht : docTimeLookup (removeVersionsFromPackageMetadata reserved cutoff obj).1 v
      = some (some t)) :
    t ≤ cutoff := by
  obtain ⟨nm, ovs, otm, odt⟩ := obj
  cases otm with
  | none =>
    cases ovs <;>
      simp [removeVersionsFromPackageMetadata, docTimeLookup, assocLookup] at ht
  | some tm =>
    cases ovs with
    | none =>
      simp [removeVersionsFromPackageMetadata, docTimeLookup, docVersionKeys] at hv
    | some vs =>
      simp only [removeVersionsFromPackageMetadata, docTimeLookup,
        Option.getD_some] at ht
      have hmem := assocLookup_mem ht
      rw [List.mem_filter] at hmem
      obtain ⟨hintm, hpred⟩ := hmem
      have hndel : v ∉ (rewriteLoop reserved cutoff tm
          ⟨[], none, none, false⟩).deleted := by
        simpa using hpred
      by_contra hlt
      have hcgt : instantGt (some t) cutoff = true := by
        simp only [instantGt, decide_eq_true_eq]
        omega
      exact hndel ((rewriteLoop_deleted_mem reserved cutoff tm _ v).mpr
        (Or.inr ⟨some t, hintm, hres, hcgt⟩))

/-- Document whose `versions` map holds a key that the `time` map does not
mention: the rewriter leaves it in place with no publish time at all. -/
def c2Doc : PackageMetadataDocument :=
  { name := "pkg", versions := some [("1.0.0", "meta")], time := some [],
    distTags := none }

/-- Claim C2 counterexample: for `c2Doc` and cutoff 0, the version key
`1.0.0` survives the rewrite but has no entry in the `time` map, so it is
false that every remaining version key has a corresponding time entry whose
instant is at most the cutoff. -/
theorem versions_without_time_counterexample :
    ¬ ∀ v ∈ docVersionKeys
        (removeVersionsFromPackageMetadata mainReservedKeys 0 c2Doc).1,
        ∃ t : Int,
          docTimeLookup (removeVersionsFromPackageMetadata mainReservedKeys 0
              c2Doc).1 v = some (some t) ∧ t ≤ 0 := by
  intro h
  obtain ⟨t, ht, -⟩ := h "1.0.0" (by decide)
  have hnone : docTimeLookup (removeVersionsFromPackageMetadata
      mainReservedKeys 0 c2Doc).1 "1.0.0" = none := by decide
  rw [hnone] at ht
  exact Option.noConfusion ht

def c2WitnessDoc : PackageMetadataDocument :=
  { name := "pkg", versions := some [("1.0.0", "meta")],
    time := some [("1.0.0", some 5)], distTags := none }

theorem rewritten_versions_time_bounded_witness :
    "1.0.0" ∈ docVersionKeys
        (removeVersionsFromPackageMetadata mainReservedKeys 10 c2WitnessDoc).1
      ∧ (5 : Int) ≤ 10 :=
  ⟨by decide,
    rewritten_versions_time_bounded mainReservedKeys 10 c2WitnessDoc "1.0.0" 5
      (by decide) (by decide) (by decide)⟩

def c3DocCreated : PackageMetadataDocument :=
  { name := "pkg", versions := some [], time := some [("created", some 100)],
    distTags := none }

def c3DocChanged : PackageMetadataDocument :=
  { name := "pkg", versions := some [], time := some [("changed", some 100)],
    distTags := none }

def c3DocLatest : PackageMetadataDocument :=
  { name := "pkg", versions := some [("1.0.0", "meta")],
    time := some [("created", some 50), ("1.0.0", some 100)],
    distTags := some (some "1.0.0") }

/-- Claim C3 (code bug): the `main.js` rewriter only treats `modified` and
`changed` as reserved, so it deletes a `created` time entry newer than the
cutoff and reports the document as changed; the `part_001`/`part_002`
variants likewise delete a `changed` entry. Moreover, a preserved `created`
entry participates in latest-tag selection in `main.js`: in the third
conjunct `dist-tags.latest` is rewritten to the string `created`. -/
theorem reserved_keys_not_left_alone :
    removeVersionsFromPackageMetadata mainReservedKeys 0 c3DocCreated
        = ({ name := "pkg", versions := some [], time := some [],
             distTags := none }, true)
      ∧ removeVersionsFromPackageMetadata variantReservedKeys 0 c3DocChanged
        = ({ name := "pkg", versions := some [], time := some [],
             distTags := none }, true)
      ∧ removeVersionsFromPackageMetadata mainReservedKeys 60 c3DocLatest
        = ({ name := "pkg", versions := some [],
             time := some [("created", some 50)],
             distTags := some (some "created") }, true) := by
  decide

/-- Unfolded form of `removeVersionsFromPackageMetadata` when both maps are
present. -/
theorem removeVersions_some_some (reserved : List String) (cutoff : Int)
    (nm : String) (vs : List (String × String)) (tm : List (String × Instant))
    (odt : Option (Option String)) :
    removeVersionsFromPackageMetadata reserved cutoff ⟨nm, some vs, some tm, odt⟩
      = (⟨nm,
          some (vs.filter fun e => decide (e.1 ∉
            (rewriteLoop reserved cutoff tm ⟨[], none, none, false⟩).deleted)),
          some (tm.filter fun e => decide (e.1 ∉
            (rewriteLoop reserved cutoff tm ⟨[], none, none, false⟩).deleted)),
          match odt with
          | some (some latest) =>
            if (rewriteLoop reserved cutoff tm
                  ⟨[], none, none, false⟩).changesMade = true
                ∧ latest ≠ ""
                ∧ latest ∈ (rewriteLoop reserved cutoff tm
                    ⟨[], none, none, false⟩).deleted then
              some (rewriteLoop reserved cutoff tm
                ⟨[], none, none, false⟩).latestPreservedVersion
            else odt
          | _ => odt⟩,
        (rewriteLoop reserved cutoff tm ⟨[], none, none, false⟩).changesMade) :=
  rfl

/-- Claim C5 (confirmed): rewriting a second time with the same cutoff leaves
the first pass's document unchanged and reports `changesMade = false`. -/
theorem rewrite_idempotent (reserved : List String) (cutoff : Int)
    (obj : PackageMetadataDocument) :
    removeVersionsFromPackageMetadata reserved cutoff
        (removeVersionsFromPackageMetadata reserved cutoff obj).1
      = ((removeVersionsFromPackageMetadata reserved cutoff obj).1, false) := by
  obtain ⟨nm, ovs, otm, odt⟩ := obj
  cases otm with
  | none => cases ovs <;> rfl
  | some tm =>
    cases ovs with
    | none => rfl
    | some vs =>
      rw [removeVersions_some_some]
      dsimp only
      rw [removeVersions_some_some]
      set acc1 := rewriteLoop reserved cutoff tm ⟨[], none, none, false⟩
        with hacc1
      have hno : ∀ e ∈ tm.filter (fun e => decide (e.1 ∉ acc1.deleted)),
          e.1 ∉ reserved → instantGt e.2 cutoff = false := by
        intro e he hnres
        rw [List.mem_filter] at he
        obtain ⟨hin, hpred⟩ := he
        cases hb : instantGt e.2 cutoff with
        | false => rfl
        | true =>
          exfalso
          simp only [decide_eq_true_eq] at hpred
          apply hpred
          refine (rewriteLoop_deleted_mem reserved cutoff tm _ e.1).mpr
            (Or.inr ⟨e.2, ?_, hnres, hb⟩)
          rw [Prod.mk.eta]
          exact hin
      obtain ⟨hdel2, hch2⟩ := rewriteLoop_no_deletable reserved cutoff
        (tm.filter fun e => decide (e.1 ∉ acc1.deleted))
        ⟨[], none, none, false⟩ hno
      have hfilv : ∀ {α : Type} (l : List (String × α)),
          (l.filter fun e => decide (e.1 ∉
            (rewriteLoop reserved cutoff
              (tm.filter fun e => decide (e.1 ∉ acc1.deleted))
              ⟨[], none, none, false⟩).deleted)) = l := by
        intro α l
        rw [hdel2]
        induction l with
        | nil => rfl
        | cons e rest ih => simp [List.filter_cons, ih]
      rw [hfilv, hfilv, hch2]
      congr 1
      congr 1
      split
      · simp
      · rfl

/-- Claim C6 (confirmed): raising the cutoff only preserves more versions. -/
theorem preserved_versions_monotone (reserved : List String) (c1 c2 : Int)
    (obj : PackageMetadataDocument) (v : String)
    (hc : c1 < c2)
    (hv : v ∈ docVersionKeys
      (removeVersionsFromPackageMetadata reserved c1 obj).1) :
    v ∈ docVersionKeys (removeVersionsFromPackageMetadata reserved c2 obj).1 := by
  obtain ⟨nm, ovs, otm, odt⟩ := obj
  cases otm with
  | none =>
    cases ovs <;> exact hv
  | some tm =>
    cases ovs with
    | none =>
      simp [removeVersionsFromPackageMetadata, docVersionKeys] at hv
    | some vs =>
      simp only [removeVersionsFromPackageMetadata, docVersionKeys,
        Option.getD_some, List.mem_map] at hv ⊢
      obtain ⟨e, he, hfst⟩ := hv
      rw [List.mem_filter] at he
      obtain ⟨hin, hpred⟩ := he
      refine ⟨e, List.mem_filter.mpr ⟨hin, ?_⟩, hfst⟩
      simp only [decide_eq_true_eq] at hpred ⊢
      intro hdel2
      apply hpred
      obtain ⟨t, htmem, hnres, hgt⟩ :=
        ((rewriteLoop_deleted_mem reserved c2 tm _ e.1).mp hdel2).resolve_left
          (by simp)
      exact (rewriteLoop_deleted_mem reserved c1 tm _ e.1).mpr
        (Or.inr ⟨t, htmem, hnres, instantGt_mono (le_of_lt hc) hgt⟩)

def c6WitnessDoc : PackageMetadataDocument :=
  { name := "pkg", versions := some [("1.0.0", "meta")],
    time := some [("1.0.0", some 5)], distTags := none }

theorem preserved_versions_monotone_witness :
    (10 : Int) < 20
      ∧ "1.0.0" ∈ docVersionKeys
          (removeVersionsFromPackageMetadata mainReservedKeys 20 c6WitnessDoc).1 :=
  ⟨by decide,
    preserved_versions_monotone mainReservedKeys 10 20 c6WitnessDoc "1.0.0"
      (by decide) (by decide)⟩

/-- A `(packageName, version, time)` triple observed during the first probe.
`time` is a valid instant in milliseconds (the driver only bisects over
events whose dates parsed). -/
structure TimelineEvent where
  packageName : String
  version : String
  time : Int
  deriving Repr, DecidableEq, Inhabited

/-- Midpoint `Math.round(goodBeforeIndex + (badAfterIndex - goodBeforeIndex) / 2)` for
natural `g ≤ b`: adding the integer `g` commutes with rounding, and JavaScript
rounds halves up, so the result is `g + ⌊((b - g) + 1) / 2⌋`. -/
def tryBeforeIndex (g b : Nat) : Nat := g + (b - g + 1) / 2

/-- The bisection `while (badAfterIndex > goodBeforeIndex)` loop with an
explicit iteration budget. Each iteration probes at cutoff
`timeline[try].time - 1` and asks the oracle; `works` moves
`goodBeforeIndex` up to `try`, otherwise `badAfterIndex` drops to `try - 1`.
A budget of `b - g` iterations is enough to reach the exit condition (claim
C7), so `bisectRun` below runs the loop to completion. -/
def bisectGo (works : Int → Bool) (timeline : List TimelineEvent) :
    Nat → Nat → Nat → Nat × Nat
  | 0, g, b => (g, b)
  | fuel + 1, g, b =>
    if b > g then
      let t := tryBeforeIndex g b
      let ev := timeline.getD t default
      if works (ev.time - 1) then bisectGo works timeline fuel t b
      else bisectGo works timeline fuel g (t - 1)
    else (g, b)

/-- The whole search: `goodBeforeIndex = 0`, `badAfterIndex = length - 1`,
loop until `badAfterIndex == goodBeforeIndex`; the final pair names the
reported culprit `timeline[goodBeforeIndex]`. -/
def bisectRun (works : Int → Bool) (timeline : List TimelineEvent) :
    Nat × Nat :=
  bisectGo works timeline (timeline.length - 1) 0 (timeline.length - 1)

theorem tryBeforeIndex_gt {g b : Nat} (h : g < b) : g < tryBeforeIndex g b := by
  unfold tryBeforeIndex
  omega

theorem tryBeforeIndex_le {g b : Nat} (h : g < b) : tryBeforeIndex g b ≤ b := by
  unfold tryBeforeIndex
  omega

theorem bisectGo_exits (works : Int → Bool) (timeline : List TimelineEvent) :
    ∀ (fuel g b : Nat), g ≤ b → b - g ≤ fuel →
      (bisectGo works timeline fuel g b).1 = (bisectGo works timeline fuel g b).2 := by
  intro fuel
  induction fuel with
  | zero =>
    intro g b hgb hfuel
    have : g = b := by omega
    simp [bisectGo, this]
  | succ fuel ih =>
    intro g b hgb hfuel
    by_cases h : b > g
    · rw [bisectGo, if_pos h]
      have h1 := tryBeforeIndex_gt h
      have h2 := tryBeforeIndex_le h
      by_cases hw : works ((timeline.getD (tryBeforeIndex g b) default).time - 1)
        = true
      · simp only [hw, if_pos]
        exact ih _ _ h2 (by omega)
      · rw [if_neg (by simpa using hw)]
        exact ih _ _ (by omega) (by omega)
    · rw [bisectGo, if_neg h]
      have : g = b := by omega
      simp [this]

/-- Claim C7 (confirmed): on entry with `badAfterIndex > goodBeforeIndex`,
the midpoint satisfies `goodBeforeIndex < try ≤ badAfterIndex`, so the
`works` branch strictly increases `goodBeforeIndex` and the other branch
strictly decreases `badAfterIndex` — both strictly shrink the interval — and
consequently the loop, run with an iteration budget of the initial interval
width, exits with `badAfterIndex == goodBeforeIndex` for every oracle and
every timeline. -/
theorem bisect_interval_shrinks (works : Int → Bool)
    (timeline : List TimelineEvent) (g b : Nat) (h : g < b) :
    g < tryBeforeIndex g b
      ∧ tryBeforeIndex g b ≤ b
      ∧ b - tryBeforeIndex g b < b - g
      ∧ (tryBeforeIndex g b - 1) - g < b - g
      ∧ (bisectGo works timeline (b - g) g b).1
          = (bisectGo works timeline (b - g) g b).2 := by
  have h1 := tryBeforeIndex_gt h
  have h2 := tryBeforeIndex_le h
  exact ⟨h1, h2, by omega, by omega,
    bisectGo_exits works timeline (b - g) g b (le_of_lt h) le_rfl⟩

theorem bisect_interval_shrinks_witness :
    (0 : Nat) < 3
      ∧ (0 < tryBeforeIndex 0 3
          ∧ tryBeforeIndex 0 3 ≤ 3
          ∧ 3 - tryBeforeIndex 0 3 < 3 - 0
          ∧ (tryBeforeIndex 0 3 - 1) - 0 < 3 - 0
          ∧ (bisectGo (fun c => decide (c < 0)) [] (3 - 0) 0 3).1
              = (bisectGo (fun c => decide (c < 0)) [] (3 - 0) 0 3).2) :=
  ⟨by decide, bisect_interval_shrinks (fun c => decide (c < 0)) [] 0 3
    (by decide)⟩

theorem bisectGo_finds_culprit (timeline : List TimelineEvent) (k : Nat)
    (hk : k < timeline.length)
    (hsort : ∀ i j : Nat, i < j → j < timeline.length →
      (timeline.getD i default).time < (timeline.getD j default).time) :
    ∀ (fuel g b : Nat), g ≤ k → k ≤ b → b < timeline.length → b - g ≤ fuel →
      bisectGo (fun c => decide (c < (timeline.getD k default).time))
          timeline fuel g b = (k, k) := by
  intro fuel
  induction fuel with
  | zero =>
    intro g b hgk hkb hb hfuel
    have hg : g = k := by omega
    have hb' : b = k := by omega
    simp [bisectGo, hg, hb']
  | succ fuel ih =>
    intro g b hgk hkb hb hfuel
    by_cases h : b > g
    · rw [bisectGo, if_pos h]
      have h1 := tryBeforeIndex_gt h
      have h2 := tryBeforeIndex_le h
      have htb : tryBeforeIndex g b < timeline.length := by omega
      by_cases hw :
          (timeline.getD (tryBeforeIndex g b) default).time - 1
            < (timeline.getD k default).time
      · have hle : tryBeforeIndex g b ≤ k := by
          by_contra hgt
          push_neg at hgt
          have := hsort k (tryBeforeIndex g b) hgt htb
          omega
        simp only [hw, decide_True, if_pos]
        exact ih _ _ hle hkb hb (by omega)
      · have hgt : k < tryBeforeIndex g b := by
          by_contra hlek
          push_neg at hlek
          rcases Nat.lt_or_ge (tryBeforeIndex g b) k with hlt | hge
          · have := hsort (tryBeforeIndex g b) k hlt hk
            omega
          · have heq : tryBeforeIndex g b = k := by omega
            rw [heq] at hw
            omega
        rw [if_neg (by simpa using hw)]
        have hkle : k ≤ tryBeforeIndex g b - 1 := by omega
        exact ih _ _ (by omega) hkle (by omega) (by omega)
    · rw [bisectGo, if_neg h]
      have hg : g = k := by omega
      have hb' : b = k := by omega
      simp [hg, hb']

/-- Claim C1 (corrected; amended form): for a non-empty timeline with
strictly increasing publish times, a designated culprit at index `k`, and the
synthetic oracle answering works exactly when the probe cutoff is strictly
below the culprit's publish time, the bisection loop exits with
`badAfterIndex == goodBeforeIndex == k`, so `timeline[goodBeforeIndex]` is
exactly the culprit. Strictness is needed: with tied publish times the loop
can converge on the wrong event (see the counterexample). -/
theorem bisect_finds_culprit (timeline : List TimelineEvent) (k : Nat)
    (hk : k < timeline.length)
    (hsorted : timeline.Pairwise fun e1 e2 => e1.time < e2.time) :
    bisectRun (fun c => decide (c < (timeline.getD k default).time)) timeline
      = (k, k) := by
  have hsort : ∀ i j : Nat, i < j → j < timeline.length →
      (timeline.getD i default).time < (timeline.getD j default).time := by
    intro i j hij hj
    have hi : i < timeline.length := Nat.lt_trans hij hj
    have hgi : timeline.getD i default = timeline.get ⟨i, hi⟩ := by
      rw [List.getD_eq_getElem?_getD, List.getElem?_eq_getElem hi]
      rfl
    have hgj : timeline.getD j default = timeline.get ⟨j, hj⟩ := by
      rw [List.getD_eq_getElem?_getD, List.getElem?_eq_getElem hj]
      rfl
    rw [hgi, hgj]
    exact List.pairwise_iff_get.mp hsorted ⟨i, hi⟩ ⟨j, hj⟩ hij
  exact bisectGo_finds_culprit timeline k hk hsort (timeline.length - 1) 0
    (timeline.length - 1) (Nat.zero_le _) (by omega) (by omega) (by omega)

def c1WitnessTimeline : List TimelineEvent :=
  [⟨"a", "1.0.1", 100⟩, ⟨"b", "2.3.0", 200⟩]

theorem bisect_finds_culprit_witness :
    0 < c1WitnessTimeline.length
      ∧ c1WitnessTimeline.Pairwise (fun e1 e2 => e1.time < e2.time)
      ∧ bisectRun
          (fun c => decide (c < (c1WitnessTimeline.getD 0 default).time))
          c1WitnessTimeline = (0, 0) :=
  ⟨by decide, by decide,
    bisect_finds_culprit c1WitnessTimeline 0 (by decide) (by decide)⟩

/-- Two candidate events published at exactly the same instant. -/
def tieTimeline : List TimelineEvent :=
  [⟨"a", "1.0.0", 500⟩, ⟨"b", "1.0.0", 500⟩]

/-- Claim C1 counterexample: the claim only assumes a sorted timeline, which
allows equal publish times. Designate the first event of `tieTimeline`
(index 0, published at 500) as the culprit; the oracle answers works exactly
when the cutoff is strictly below 500. The loop probes index 1 at cutoff
499, the oracle says works, `goodBeforeIndex` becomes 1, and the loop exits
reporting index 1 — an event different from the designated culprit. -/
theorem bisect_tie_counterexample :
    bisectRun (fun c => decide (c < (tieTimeline.getD 0 default).time))
        tieTimeline = (1, 1)
      ∧ tieTimeline.getD 1 default ≠ tieTimeline.getD 0 default := by
  decide

/-- Result of `parsePackageAndVersionRange`. -/
structure PackageSpec where
  packageName : String
  versionRange : String
  deriving Repr, DecidableEq

/-- Embedding of `parsePackageAndVersionRange`: the regex `^([^@]+)@(.+)$` matches exactly
when the string splits as a nonempty run of non-at characters, an at sign,
and a nonempty remainder; on a match the name is everything before the first
at sign and the range is the rest, otherwise the whole string is the package
name and the range defaults to the wildcard. -/
def parsePackageAndVersionRange (s : String) : PackageSpec :=
  match s.data.takeWhile (fun c => decide (c ≠ '@')),
      s.data.dropWhile (fun c => decide (c ≠ '@')) with
  | n1 :: ns, _ :: r1 :: rs => ⟨⟨n1 :: ns⟩, ⟨r1 :: rs⟩⟩
  | _, _ => ⟨s, "*"⟩

/-- Embedding of `matchesPackageSpec(event, spec)`: names must be equal and the event's
version must satisfy the spec's range. The external `semver.satisfies`
collaborator is the `satRange` parameter. -/
def matchesPackageSpec (satRange : String → String → Bool)
    (event : TimelineEvent) (spec : PackageSpec) : Bool :=
  event.packageName == spec.packageName
    && satRange event.version spec.versionRange

theorem takeWhile_append_at (l r : List Char) (h : '@' ∉ l) :
    ((l ++ '@' :: r).takeWhile fun c => decide (c ≠ '@')) = l := by
  induction l with
  | nil =>
    rw [List.nil_append, List.takeWhile_cons_of_neg]
    simp
  | cons a as ih =>
    rw [List.mem_cons, not_or] at h
    have ha : (fun c => decide (c ≠ '@')) a = true := by
      simp only [decide_eq_true_eq]
      exact fun heq => h.1 heq.symm
    rw [List.cons_append,
      List.takeWhile_cons_of_pos (p := fun c => decide (c ≠ '@')) ha, ih h.2]

theorem dropWhile_append_at (l r : List Char) (h : '@' ∉ l) :
    ((l ++ '@' :: r).dropWhile fun c => decide (c ≠ '@')) = '@' :: r := by
  induction l with
  | nil =>
    rw [List.nil_append, List.dropWhile_cons_of_neg]
    simp
  | cons a as ih =>
    rw [List.mem_cons, not_or] at h
    have ha : (fun c => decide (c ≠ '@')) a = true := by
      simp only [decide_eq_true_eq]
      exact fun heq => h.1 heq.symm
    rw [List.cons_append,
      List.dropWhile_cons_of_pos (p := fun c => decide (c ≠ '@')) ha, ih h.2]

theorem dropWhile_no_at (l : List Char) (h : '@' ∉ l) :
    (l.dropWhile fun c => decide (c ≠ '@')) = [] := by
  induction l with
  | nil => rfl
  | cons a as ih =>
    rw [List.mem_cons, not_or] at h
    have ha : (fun c => decide (c ≠ '@')) a = true := by
      simp only [decide_eq_true_eq]
      exact fun heq => h.1 heq.symm
    rw [List.dropWhile_cons_of_pos (p := fun c => decide (c ≠ '@')) ha, ih h.2]

theorem parse_with_range (name range : String)
    (hn : name.data ≠ []) (hat : '@' ∉ name.data) (hr : range.data ≠ []) :
    parsePackageAndVersionRange (name ++ "@" ++ range) = ⟨name, range⟩ := by
  obtain ⟨d⟩ := name
  obtain ⟨d2⟩ := range
  simp only [String.data] at hn hat hr
  obtain ⟨r1, rs, rfl⟩ := List.exists_cons_of_ne_nil hr
  unfold parsePackageAndVersionRange
  have hdata : (String.mk d ++ "@" ++ String.mk (r1 :: rs)).data
      = d ++ '@' :: (r1 :: rs) := by
    simp [String.data_append]
  rw [hdata, takeWhile_append_at _ _ hat, dropWhile_append_at _ _ hat]
  obtain ⟨n1, ns, rfl⟩ := List.exists_cons_of_ne_nil hn
  rfl

theorem parse_no_at (name : String) (hat : '@' ∉ name.data) :
    parsePackageAndVersionRange name = ⟨name, "*"⟩ := by
  obtain ⟨d⟩ := name
  simp only [String.data] at hat
  unfold parsePackageAndVersionRange
  rw [String.data, dropWhile_no_at d hat]
  cases d.takeWhile fun c => decide (c ≠ '@') <;> rfl

/-- Claim C9 (corrected; amended form): for a filter entry whose package
name is nonempty and unscoped (free of at signs), the entry matches an
event iff the names are equal and the event's version satisfies the entry's
range, the range defaulting to the wildcard when the entry carries none.
Scoped names are excluded: they begin with an at sign, the regex fails, and
the whole entry is taken as a name with wildcard range (see the
counterexample). -/
theorem filter_match_amended (satRange : String → String → Bool)
    (name range : String) (event : TimelineEvent)
    (hn : name.data ≠ []) (hat : '@' ∉ name.data) (hr : range.data ≠ []) :
    matchesPackageSpec satRange event
        (parsePackageAndVersionRange (name ++ "@" ++ range))
      = (event.packageName == name && satRange event.version range)
    ∧ matchesPackageSpec satRange event (parsePackageAndVersionRange name)
      = (event.packageName == name && satRange event.version "*") := by
  rw [matchesPackageSpec, matchesPackageSpec,
    parse_with_range name range hn hat hr, parse_no_at name hat]
  exact ⟨rfl, rfl⟩

/-- A concrete stand-in for `semver.satisfies`: a version satisfies the
wildcard range or its own literal. -/
def exactOrStar (v r : String) : Bool := r == "*" || v == r

theorem filter_match_amended_witness :
    ("underscore".data ≠ [] ∧ '@' ∉ "underscore".data ∧ "^1.2.3".data ≠ [])
      ∧ (matchesPackageSpec exactOrStar ⟨"underscore", "1.2.3", 0⟩
            (parsePackageAndVersionRange ("underscore" ++ "@" ++ "^1.2.3"))
          = ("underscore" == "underscore" && exactOrStar "1.2.3" "^1.2.3")
        ∧ matchesPackageSpec exactOrStar ⟨"underscore", "1.2.3", 0⟩
            (parsePackageAndVersionRange "underscore")
          = ("underscore" == "underscore" && exactOrStar "1.2.3" "*")) :=
  ⟨⟨by decide, by decide, by decide⟩,
    filter_match_amended exactOrStar "underscore" "^1.2.3"
      ⟨"underscore", "1.2.3", 0⟩ (by decide) (by decide) (by decide)⟩

/-- Claim C9 counterexample: the scoped entry `@scope/pkg@1.0.0` starts with
an at sign, so the regex does not match and the whole string becomes the
package name with wildcard range; the event `(@scope/pkg, 1.0.0)` therefore
does not match even though its name equals the entry's name part and its
version satisfies the entry's range. -/
theorem scoped_filter_counterexample :
    parsePackageAndVersionRange "@scope/pkg@1.0.0"
        = ⟨"@scope/pkg@1.0.0", "*"⟩
      ∧ matchesPackageSpec exactOrStar ⟨"@scope/pkg", "1.0.0", 0⟩
          (parsePackageAndVersionRange "@scope/pkg@1.0.0") = false
      ∧ ("@scope/pkg" == "@scope/pkg" && exactOrStar "1.0.0" "1.0.0")
        = true := by
  decide

/-- Request or response headers, as node delivers them: an entry list with
lowercased names. -/
abbrev Headers := List (String × String)

/-- Reading `headers[k]`. -/
def getHeader (hs : Headers) (k : String) : Option String := assocLookup hs k

/-- Writing `headers[k] = v` on a JavaScript object: an existing entry is
overwritten in place, otherwise the entry is appended. -/
def setHeader (k v : String) (hs : Headers) : Headers :=
  if hs.any fun e => decide (e.1 = k) then
    hs.map fun e => if e.1 = k then (k, v) else e
  else hs ++ [(k, v)]

/-- Deletion `delete headers[k]`. -/
def deleteHeader (k : String) (hs : Headers) : Headers :=
  hs.filter fun e => decide (e.1 ≠ k)

theorem getHeader_setHeader_self (k v : String) (hs : Headers) :
    getHeader (setHeader k v hs) k = some v := by
  unfold setHeader getHeader
  by_cases hany : (hs.any fun e => decide (e.1 = k)) = true
  · rw [if_pos hany]
    induction hs with
    | nil => simp at hany
    | cons e rest ih =>
      obtain ⟨k1, v1⟩ := e
      by_cases he : k1 = k
      · subst he
        rw [List.map_cons, if_pos rfl, assocLookup, if_pos rfl]
      · rw [List.map_cons, if_neg he, assocLookup, if_neg he]
        refine ih ?_
        rw [List.any_cons] at hany
        simpa [he] using hany
  · rw [if_neg hany]
    induction hs with
    | nil => simp [assocLookup]
    | cons e rest ih =>
      obtain ⟨k1, v1⟩ := e
      rw [List.any_cons] at hany
      have he : ¬ k1 = k := by
        intro heq
        exact hany (by simp [heq])
      rw [List.cons_append, assocLookup, if_neg he]
      exact ih fun h => hany (by simp [h])

theorem getHeader_setHeader_other (k v q : String) (hs : Headers)
    (hne : q ≠ k) : getHeader (setHeader k v hs) q = getHeader hs q := by
  unfold setHeader getHeader
  by_cases hany : (hs.any fun e => decide (e.1 = k)) = true
  · rw [if_pos hany]
    clear hany
    induction hs with
    | nil => rfl
    | cons e rest ih =>
      obtain ⟨k1, v1⟩ := e
      by_cases he : k1 = k
      · rw [List.map_cons, if_pos he, assocLookup, assocLookup,
          if_neg (fun h => hne h.symm), if_neg (fun h => hne (he ▸ h).symm)]
        exact ih
      · rw [List.map_cons, if_neg he, assocLookup, assocLookup]
        by_cases hq : k1 = q
        · rw [if_pos hq, if_pos hq]
        · rw [if_neg hq, if_neg hq]
          exact ih
  · rw [if_neg hany]
    clear hany
    induction hs with
    | nil =>
      rw [List.nil_append, assocLookup, assocLookup, if_neg fun h => hne h.symm]
      rfl
    | cons e rest ih =>
      obtain ⟨k1, v1⟩ := e
      rw [List.cons_append, assocLookup, assocLookup]
      by_cases hq : k1 = q
      · rw [if_pos hq, if_pos hq]
      · rw [if_neg hq, if_neg hq]
        exact ih

theorem getHeader_deleteHeader_self (k : String) (hs : Headers) :
    getHeader (deleteHeader k hs) k = none := by
  unfold deleteHeader getHeader
  induction hs with
  | nil => rfl
  | cons e rest ih =>
    obtain ⟨k1, v1⟩ := e
    by_cases he : k1 = k
    · rw [List.filter_cons]
      simp only [he, decide_eq_true_eq]
      simpa using ih
    · rw [List.filter_cons]
      have : decide ((k1, v1).1 ≠ k) = true := by simpa using he
      rw [this, if_pos rfl, assocLookup, if_neg he]
      exact ih

theorem getHeader_deleteHeader_other (k q : String) (hs : Headers)
    (hne : q ≠ k) : getHeader (deleteHeader k hs) q = getHeader hs q := by
  unfold deleteHeader getHeader
  induction hs with
  | nil => rfl
  | cons e rest ih =>
    obtain ⟨k1, v1⟩ := e
    by_cases he : k1 = k
    · rw [List.filter_cons]
      simp only [he, decide_eq_true_eq]
      have hq : ¬ k1 = q := he ▸ fun h => hne h.symm
      simp only [ne_eq, not_true_eq_false, decide_False, Bool.false_eq_true,
        if_false]
      rw [assocLookup, if_neg (he ▸ hq)]
      exact ih
    · rw [List.filter_cons]
      have : decide ((k1, v1).1 ≠ k) = true := by simpa using he
      rw [this, if_pos rfl, assocLookup, assocLookup]
      by_cases hq : k1 = q
      · rw [if_pos hq, if_pos hq]
      · rw [if_neg hq, if_neg hq]
        exact ih

theorem mem_setHeader {k v : String} {hs : Headers} {e : String × String}
    (he : e ∈ setHeader k v hs) : e.1 = k ∨ e ∈ hs := by
  unfold setHeader at he
  by_cases hany : (hs.any fun e => decide (e.1 = k)) = true
  · rw [if_pos hany] at he
    obtain ⟨a, ha, hae⟩ := List.mem_map.mp he
    by_cases h1 : a.1 = k
    · rw [if_pos h1] at hae
      left
      rw [← hae]
    · rw [if_neg h1] at hae
      right
      rw [← hae]
      exact ha
  · rw [if_neg hany] at he
    rcases List.mem_append.mp he with hmem | hone
    · exact Or.inr hmem
    · left
      rw [List.mem_singleton.mp hone]

theorem mem_deleteHeader {k : String} {hs : Headers} {e : String × String}
    (he : e ∈ deleteHeader k hs) : e ∈ hs ∧ e.1 ≠ k := by
  unfold deleteHeader at he
  rw [List.mem_filter] at he
  exact ⟨he.1, by simpa using he.2⟩

/-- The compact install-time `Accept` value that npm sends for metadata
requests; `main.js` and `part_002` compare against this exact string. -/
def installV1AcceptValue : String :=
  "application/vnd.npm.install-v1+json; q=1.0, application/json; q=0.8, */*"

/-- The media type whose presence `part_001` tests with `includes`. -/
def installV1Token : String := "application/vnd.npm.install-v1+json"

/-- Substring test `hay.includes(needle)` on JavaScript strings. -/
def containsSubstring (hay needle : String) : Bool :=
  decide (needle.data <:+: hay.data)

/-- Header normalization that `main.js` (and `part_002`) applies to a request
whose derived host is the registry: strip `accept-encoding`, `if-none-match`
and `connection`, then rewrite `accept` to plain JSON — but only when the
request path is exactly `/messy` and the `accept` header is byte-equal to
the full compact-variant value. -/
def normalizeRegistryRequestHeadersMain (path : String) (hs : Headers) :
    Headers :=
  let h3 := deleteHeader "connection"
    (deleteHeader "if-none-match" (deleteHeader "accept-encoding" hs))
  if path = "/messy" ∧ getHeader h3 "accept" = some installV1AcceptValue then
    setHeader "accept" "application/json" h3
  else h3

/-- Header normalization that the `part_001` variant applies to a registry
request: same header stripping, then rewrite `accept` whenever it contains
the compact media type, regardless of the request path. A request with no
`accept` header at all makes the JavaScript throw
(`undefined.includes`); such requests are left unchanged here and are
outside every claim, which quantifies over requests whose `Accept` declares
the compact variant. -/
def normalizeRegistryRequestHeadersVariant (hs : Headers) : Headers :=
  let h3 := deleteHeader "connection"
    (deleteHeader "if-none-match" (deleteHeader "accept-encoding" hs))
  match getHeader h3 "accept" with
  | some a =>
    if containsSubstring a installV1Token then
      setHeader "accept" "application/json" h3
    else h3
  | none => h3

/-- Headers of a typical metadata request for a package other than `messy`. -/
def c4Headers : Headers :=
  [("host", "registry.npmjs.org"), ("accept", installV1AcceptValue)]

/-- Claim C4 (code bug): `main.js`/`part_002` rewrite the `Accept` header
only when the request path is exactly `/messy` (with a byte-equal header),
so a metadata request for any other package keeps the compact `Accept`
value, contradicting the claimed for-every-path behavior; the `part_001`
variant rewrites it as claimed. -/
theorem accept_rewrite_only_for_messy_path :
    getHeader (normalizeRegistryRequestHeadersMain "/underscore" c4Headers)
        "accept" = some installV1AcceptValue
      ∧ getHeader (normalizeRegistryRequestHeadersMain "/messy" c4Headers)
          "accept" = some "application/json"
      ∧ getHeader (normalizeRegistryRequestHeadersVariant c4Headers)
          "accept" = some "application/json" := by
  refine ⟨by decide, by decide, ?_⟩
  decide

/-- An upstream response as the proxy holds it just before writing back to
the client: status code, headers, and the body bytes. -/
structure ResponseResult where
  statusCode : Nat
  headers : Headers
  body : List Nat
  deriving Repr, DecidableEq

/-- The edits the request handler performs when `changesMade` is true:
re-serialize the document into the new body, set `content-length` to the new
byte length, delete `transfer-encoding` and `content-encoding`, and force
`connection: close`. -/
def applyRewrittenResponseEdits (newBody : List Nat) (r : ResponseResult) :
    ResponseResult :=
  { statusCode := r.statusCode,
    headers :=
      setHeader "connection" "close"
        (deleteHeader "content-encoding"
          (deleteHeader "transfer-encoding"
            (setHeader "content-length" (toString newBody.length) r.headers))),
    body := newBody }

/-- End of the registry response path: run the rewriter on the parsed JSON
body `obj`; if it reports changes, apply the body/header edits (with
`serializeDoc` standing for `Buffer.from(JSON.stringify(obj, undefined,
'  '))`, whose exact bytes no claim depends on), otherwise hand the upstream
response back untouched. -/
def finalizeRegistryResponse (reserved : List String) (cutoff : Int)
    (obj : PackageMetadataDocument)
    (serializeDoc : PackageMetadataDocument → List Nat)
    (r : ResponseResult) : ResponseResult :=
  if (removeVersionsFromPackageMetadata reserved cutoff obj).2 then
    applyRewrittenResponseEdits
      (serializeDoc (removeVersionsFromPackageMetadata reserved cutoff obj).1)
      r
  else r

/-- True when a header entry is one of the hop-by-hop encodings the rewriter
must drop. -/
def isDroppedEncodingHeader (e : String × String) : Bool :=
  decide (e.1 = "transfer-encoding") || decide (e.1 = "content-encoding")

/-- Claim C8 (confirmed): whenever the rewriter reports changes, the
forwarded response carries `content-length` equal (as a decimal string) to
the byte length of the re-serialized body, and no `transfer-encoding` or
`content-encoding` entry survives in the forwarded headers. -/
theorem rewritten_response_headers_consistent (reserved : List String)
    (cutoff : Int) (obj : PackageMetadataDocument)
    (serializeDoc : PackageMetadataDocument → List Nat) (r : ResponseResult)
    (h : (removeVersionsFromPackageMetadata reserved cutoff obj).2 = true) :
    getHeader
        (finalizeRegistryResponse reserved cutoff obj serializeDoc r).headers
        "content-length"
      = some (toString
          (finalizeRegistryResponse reserved cutoff obj serializeDoc
            r).body.length)
    ∧ ((finalizeRegistryResponse reserved cutoff obj serializeDoc
          r).headers.all fun e => !isDroppedEncodingHeader e) = true := by
  unfold finalizeRegistryResponse
  rw [h]
  simp only [if_true]
  unfold applyRewrittenResponseEdits
  constructor
  · rw [getHeader_setHeader_other _ _ _ _ (by decide),
      getHeader_deleteHeader_other _ _ _ (by decide),
      getHeader_deleteHeader_other _ _ _ (by decide),
      getHeader_setHeader_self]
  · rw [List.all_eq_true]
    intro e he
    rcases mem_setHeader he with hconn | hmem
    · simp [isDroppedEncodingHeader, hconn]
    · obtain ⟨hmem2, hce⟩ := mem_deleteHeader hmem
      obtain ⟨hmem3, hte⟩ := mem_deleteHeader hmem2
      simp [isDroppedEncodingHeader, hce, hte]

def c8Doc : PackageMetadataDocument :=
  { name := "pkg", versions := some [("2.0.0", "meta")],
    time := some [("2.0.0", some 100)], distTags := none }

def c8Response : ResponseResult :=
  { statusCode := 200,
    headers := [("content-type", "application/json"),
                ("transfer-encoding", "chunked"),
                ("content-length", "2")],
    body := [123, 125] }

theorem rewritten_response_headers_consistent_witness :
    (removeVersionsFromPackageMetadata mainReservedKeys 0 c8Doc).2 = true
      ∧ (getHeader
            (finalizeRegistryResponse mainReservedKeys 0 c8Doc
              (fun _ => [110, 117, 108, 108]) c8Response).headers
            "content-length"
          = some (toString
              (finalizeRegistryResponse mainReservedKeys 0 c8Doc
                (fun _ => [110, 117, 108, 108]) c8Response).body.length)
        ∧ ((finalizeRegistryResponse mainReservedKeys 0 c8Doc
              (fun _ => [110, 117, 108, 108]) c8Response).headers.all
            fun e => !isDroppedEncodingHeader e) = true) :=
  ⟨by decide,
    rewritten_response_headers_consistent mainReservedKeys 0 c8Doc
      (fun _ => [110, 117, 108, 108]) c8Response (by decide)⟩

/-- Claim C10 (confirmed): when the rewriter reports no changes, the proxy
hands the upstream response back exactly as received — same status code,
same headers (no touch to `content-length`, `transfer-encoding`,
`content-encoding` or `connection`), same body bytes. -/
theorem unchanged_response_forwarded_verbatim (reserved : List String)
    (cutoff : Int) (obj : PackageMetadataDocument)
    (serializeDoc : PackageMetadataDocument → List Nat) (r : ResponseResult)
    (h : (removeVersionsFromPackageMetadata reserved cutoff obj).2 = false) :
    finalizeRegistryResponse reserved cutoff obj serializeDoc r = r := by
  unfold finalizeRegistryResponse
  rw [h]
  simp

def c10Doc : PackageMetadataDocument :=
  { name := "pkg", versions := some [("1.0.0", "meta")],
    time := some [("1.0.0", some 5)], distTags := none }

theorem unchanged_response_forwarded_verbatim_witness :
    (removeVersionsFromPackageMetadata mainReservedKeys 10 c10Doc).2 = false
      ∧ finalizeRegistryResponse mainReservedKeys 10 c10Doc
          (fun _ => []) c8Response = c8Response :=
  ⟨by decide,
    unchanged_response_forwarded_verbatim mainReservedKeys 10 c10Doc
      (fun _ => []) c8Response (by decide)⟩

end NpmBisect
